import Mathlib

/-!
Verification of the call-trace tree in src/evm-adapters/src/call_tracing.rs.

The shallow embedding mirrors the Rust structure CallTrace and its methods.
Machine integers (usize, u64) are modelled as Nat; H160/H256 addresses and
topics are modelled as opaque Nat identifiers; byte vectors as List Nat.
Methods taking &mut self are modelled as functions returning the new tree;
the expect(..) panics on a missing last child are modelled as an Except
error (TraceErr.disconnected), and the panicking index operation
self.inner[new_trace.location] is modelled as TraceErr.indexOutOfBounds.
-/

/-- Mirror of ethers RawLog: a topic list plus opaque data bytes. -/
structure RawLog where
  topics : List Nat
  data : List Nat
deriving DecidableEq

/-- The scalar fields of the Rust struct CallTrace (everything except the
recursive field inner). -/
structure TraceInfo where
  depth : Nat
  location : Nat
  success : Bool
  addr : Nat
  created : Bool
  data : List Nat
  cost : Nat
  output : List Nat
  logs : List RawLog
deriving DecidableEq

/-- Mirror of the Rust struct CallTrace: the scalar fields together with
the child list inner. -/
inductive CallTrace : Type where
  | mk (info : TraceInfo) (inner : List CallTrace)

/-- Projection to the scalar fields. -/
def CallTrace.info : CallTrace → TraceInfo
  | .mk i _ => i

/-- Projection to the child list (the Rust field inner). -/
def CallTrace.inner : CallTrace → List CallTrace
  | .mk _ c => c

/-- The depth field of a node. -/
def CallTrace.depth (t : CallTrace) : Nat := t.info.depth

/-- The two distinct panic sites of the construction methods: the
expect("Disconnected trace ...") calls, and the unchecked index
self.inner[new_trace.location] in update_trace. -/
inductive TraceErr : Type where
  | disconnected
  | indexOutOfBounds
deriving DecidableEq

mutual

/-- Mirror of CallTrace::add_trace.  A depth-0 fragment leaves the tree
unchanged (the overwrite is commented out in the source); a fragment whose
depth is one more than the current node is pushed onto inner; otherwise the
call recurses into the last child, panicking (here: erroring) when inner is
empty. -/
def CallTrace.add_trace : CallTrace → CallTrace → Except TraceErr CallTrace
  | .mk info inner, new_trace =>
    if new_trace.depth = 0 then
      .ok (.mk info inner)
    else if info.depth = new_trace.depth - 1 then
      .ok (.mk info (inner ++ [new_trace]))
    else
      match add_trace_last inner new_trace with
      | .ok inner2 => .ok (.mk info inner2)
      | .error e => .error e

/-- Models self.inner.last_mut().expect("Disconnected trace").add_trace(t):
replace the last element of the list by the result of the recursive call,
erroring on an empty list. -/
def add_trace_last : List CallTrace → CallTrace → Except TraceErr (List CallTrace)
  | [], _ => .error .disconnected
  | [c], new_trace =>
    match c.add_trace new_trace with
    | .ok c2 => .ok [c2]
    | .error e => .error e
  | c :: c2 :: cs, new_trace =>
    match add_trace_last (c2 :: cs) new_trace with
    | .ok l => .ok (c :: l)
    | .error e => .error e

end

/-- Mirror of CallTrace::update (private helper): overwrite success, addr,
cost, output, logs and data with the values of the fragment (addr is
assigned twice in the source, with the same value); depth, location,
created and inner are not touched. -/
def CallTrace.update : CallTrace → CallTrace → CallTrace
  | .mk info inner, .mk tinfo _ =>
    .mk { info with
      success := tinfo.success
      addr := tinfo.addr
      cost := tinfo.cost
      output := tinfo.output
      logs := tinfo.logs
      data := tinfo.data } inner

mutual

/-- Mirror of CallTrace::update_trace.  Depth 0 updates the current node in
place; when the current node is the direct parent the child at index
new_trace.location is updated (an out-of-range index panics in Rust,
modelled as indexOutOfBounds); otherwise recurse into the last child,
erroring with disconnected when inner is empty. -/
def CallTrace.update_trace : CallTrace → CallTrace → Except TraceErr CallTrace
  | .mk info inner, new_trace =>
    if new_trace.depth = 0 then
      .ok ((CallTrace.mk info inner).update new_trace)
    else if info.depth = new_trace.depth - 1 then
      match inner[new_trace.info.location]? with
      | none => .error .indexOutOfBounds
      | some c => .ok (.mk info (inner.set new_trace.info.location (c.update new_trace)))
    else
      match update_trace_last inner new_trace with
      | .ok inner2 => .ok (.mk info inner2)
      | .error e => .error e

/-- Models self.inner.last_mut().expect("Disconnected trace update")
.update_trace(t). -/
def update_trace_last : List CallTrace → CallTrace → Except TraceErr (List CallTrace)
  | [], _ => .error .disconnected
  | [c], new_trace =>
    match c.update_trace new_trace with
    | .ok c2 => .ok [c2]
    | .error e => .error e
  | c :: c2 :: cs, new_trace =>
    match update_trace_last (c2 :: cs) new_trace with
    | .ok l => .ok (c :: l)
    | .error e => .error e

end

mutual

/-- Mirror of CallTrace::location (a method on &self, hence pure): returns
0 for a depth-0 fragment, the current child count when the current node is
the direct parent, and otherwise recurses into the last child, erroring
with disconnected (expect("Disconnected trace location")) when inner is
empty. -/
def CallTrace.location : CallTrace → CallTrace → Except TraceErr Nat
  | .mk info inner, new_trace =>
    if new_trace.depth = 0 then
      .ok 0
    else if info.depth = new_trace.depth - 1 then
      .ok inner.length
    else
      location_last inner new_trace

/-- Models self.inner.last().expect("Disconnected trace location")
.location(t). -/
def location_last : List CallTrace → CallTrace → Except TraceErr Nat
  | [], _ => .error .disconnected
  | [c], new_trace => c.location new_trace
  | _ :: c2 :: cs, new_trace => location_last (c2 :: cs) new_trace

end

mutual

/-- Mirror of CallTrace::inner_number_of_inners: the sum of the recursive
counts of the children plus the number of children. -/
def CallTrace.inner_number_of_inners : CallTrace → Nat
  | .mk _ inner => inner_number_of_inners_list inner + inner.length

/-- The for_each accumulation over the child list in inner_number_of_inners. -/
def inner_number_of_inners_list : List CallTrace → Nat
  | [] => 0
  | c :: cs => c.inner_number_of_inners + inner_number_of_inners_list cs

end

mutual

/-- Mirror of CallTrace::get_trace: return the node itself when both depth
and location match; search the children in order only when the depth of
the current node differs from the requested depth; otherwise None. -/
def CallTrace.get_trace : CallTrace → Nat → Nat → Option CallTrace
  | .mk info inner, depth, location =>
    if info.depth = depth ∧ info.location = location then
      some (.mk info inner)
    else if info.depth ≠ depth then
      get_trace_list inner depth location
    else
      none

/-- The for loop over the child list in get_trace, returning the first
recursive hit. -/
def get_trace_list : List CallTrace → Nat → Nat → Option CallTrace
  | [], _, _ => none
  | c :: cs, depth, location =>
    match c.get_trace depth location with
    | some t => some t
    | none => get_trace_list cs depth location

end

/-!
Rendering model for CallTrace::pretty_print.  The external ethers ABI types
are modelled abstractly: a function is its 4-byte selector together with
its input decoder (decode_input, whose unwrap panic is modelled as an
error); an event is its signature topic together with its log parser
(parse_log, likewise).  println output is modelled as a list of RenderLine
records carrying the printed pieces; terminal colours are carried as tags.
-/

/-- An ABI function entry, abstracted to the parts pretty_print uses:
the selector and the (external, possibly failing) input decoder. -/
structure AbiFunction where
  selector : List Nat
  decode_input : List Nat → Option String

/-- An ABI event entry, abstracted to the signature topic and the
(external, possibly failing) log decoder. -/
structure AbiEvent where
  signature : Nat
  parse_log : RawLog → Option String

/-- The parts of ethers Abi that pretty_print reads: the name-keyed lists
of overloaded functions and events (BTreeMap iteration order is modelled
by the list order). -/
structure Abi where
  functions : List (String × List AbiFunction)
  events : List (String × List AbiEvent)

/-- The contracts argument of pretty_print:
BTreeMap from name to (Abi, Address, Vec of strings), modelled as the
key-ordered association list that .iter() produces. -/
abbrev Contracts := List (String × Abi × Nat × List String)

/-- Terminal colours used by pretty_print, carried as inert tags. -/
inductive Colour : Type where
  | green
  | red
  | cyan
  | blue
deriving DecidableEq

/-- One println of pretty_print, as structured data: a decoded function
call line, a decoded event line, a raw log line, or the raw call line of
the contract-less branch (with and without a 4-byte selector). -/
inductive RenderLine : Type where
  | funcCall (left : String) (cost : Nat) (name func_name : String)
      (color : Colour) (decoded : String)
  | emitEvent (head : String) (event_name : String) (parsed : String)
  | emitRawLog (head : String) (color : Colour) (log : RawLog)
  | rawCall (left : String) (addr : Nat) (selector remainder : List Nat)
  | rawCallShort (left : String) (addr : Nat) (data : List Nat)

/-- The panic sites of pretty_print: the slice self.data[0..4] on a short
payload, decode_input(..).unwrap(), the index log.topics[0] on an empty
topic list, and parse_log(..).unwrap(). -/
inductive RenderErr : Type where
  | sliceOutOfRange
  | decodeInputFailed
  | topicsIndexOutOfBounds
  | parseLogFailed
deriving DecidableEq

/-- Inner loop of the function-printing pass: for each overloaded function,
evaluate self.data[0..4] (panicking when the payload is shorter than 4
bytes), compare with the selector and on a match print the decoded call,
panicking when decode_input fails. -/
def func_overload_lines (data : List Nat) (left : String) (cost : Nat)
    (color : Colour) (name func_name : String) :
    List AbiFunction → Except RenderErr (List RenderLine)
  | [] => .ok []
  | f :: fs =>
    if data.length < 4 then
      .error .sliceOutOfRange
    else if f.selector = data.take 4 then
      match f.decode_input (data.drop 4) with
      | none => .error .decodeInputFailed
      | some decoded =>
        match func_overload_lines data left cost color name func_name fs with
        | .ok ls => .ok (RenderLine.funcCall left cost name func_name color decoded :: ls)
        | .error e => .error e
    else
      func_overload_lines data left cost color name func_name fs

/-- Outer loop of the function-printing pass over abi.functions. -/
def func_entry_lines (data : List Nat) (left : String) (cost : Nat)
    (color : Colour) (name : String) :
    List (String × List AbiFunction) → Except RenderErr (List RenderLine)
  | [] => .ok []
  | (func_name, fs) :: rest =>
    match func_overload_lines data left cost color name func_name fs with
    | .error e => .error e
    | .ok ls =>
      match func_entry_lines data left cost color name rest with
      | .ok ls2 => .ok (ls ++ ls2)
      | .error e => .error e

/-- Inner loop over the overloads of one event name: reading log.topics[0]
panics on an empty topic list; a signature match prints the parsed log
(panicking when parse_log fails) and records that a match was found. -/
def event_overload_lines (log : RawLog) (head event_name : String) :
    List AbiEvent → Except RenderErr (List RenderLine × Bool)
  | [] => .ok ([], false)
  | e :: es =>
    match log.topics with
    | [] => .error .topicsIndexOutOfBounds
    | t0 :: _ =>
      if e.signature = t0 then
        match e.parse_log log with
        | none => .error .parseLogFailed
        | some parsed =>
          match event_overload_lines log head event_name es with
          | .ok (ls, _) => .ok (RenderLine.emitEvent head event_name parsed :: ls, true)
          | .error e2 => .error e2
      else
        event_overload_lines log head event_name es

/-- Loop over abi.events for one log: after scanning the overloads of one
event name, a blue raw-log line is printed when none of them matched. -/
def event_entry_lines (log : RawLog) (head : String) :
    List (String × List AbiEvent) → Except RenderErr (List RenderLine)
  | [] => .ok []
  | (event_name, es) :: rest =>
    match event_overload_lines log head event_name es with
    | .error e => .error e
    | .ok (ls, found) =>
      match event_entry_lines log head rest with
      | .error e => .error e
      | .ok ls2 =>
        .ok ((if found then ls else ls ++ [RenderLine.emitRawLog head .blue log]) ++ ls2)

/-- The log loop of the contract-matched branch: the connector depends on
whether the log is the last one, and the prefix replaces the branch
connector of left with a continuation bar. -/
def matched_log_lines (abiEvents : List (String × List AbiEvent)) (left : String)
    (n : Nat) : List RawLog → Nat → Except RenderErr (List RenderLine)
  | [], _ => .ok []
  | log :: rest, i =>
    match event_entry_lines log
        (left.replace ("├─ ") ("|  ") ++ (if i = n - 1 then ("└─ ") else ("├─ "))) abiEvents with
    | .error e => .error e
    | .ok ls =>
      match matched_log_lines abiEvents left n rest (i + 1) with
      | .error e => .error e
      | .ok ls2 => .ok (ls ++ ls2)

/-- The log loop of the contract-less branch: every log is printed raw in
cyan, with the same connector rule. -/
def unmatched_log_lines (left : String) (n : Nat) : List RawLog → Nat → List RenderLine
  | [], _ => []
  | log :: rest, i =>
    RenderLine.emitRawLog
        (left.replace ("├─ ") ("|  ") ++ (if i = n - 1 then ("└─ ") else ("├─ "))) .cyan log
      :: unmatched_log_lines left n rest (i + 1)

mutual

/-- Mirror of CallTrace::pretty_print.  When some contract in the map has
the address of this node, print the selector-matched functions (green on
success, red on failure), then the children, then the logs decoded against
the events of the ABI; otherwise print the raw call line (hex selector and
payload, or the whole payload when shorter than 4 bytes), then the
children, then the logs in cyan. -/
def CallTrace.pretty_print : CallTrace → Contracts → String → Except RenderErr (List RenderLine)
  | .mk info inner, contracts, left =>
    match contracts.find? (fun e => e.2.2.1 == info.addr) with
    | some (name, abi, _addr, _other) =>
      match func_entry_lines info.data left info.cost
          (if info.success then Colour.green else Colour.red) name abi.functions with
      | .error e => .error e
      | .ok funcLines =>
        match pretty_print_list contracts left inner.length info.logs.length inner 0 with
        | .error e => .error e
        | .ok childLines =>
          match matched_log_lines abi.events left info.logs.length info.logs 0 with
          | .error e => .error e
          | .ok logLines => .ok (funcLines ++ childLines ++ logLines)
    | none =>
      match pretty_print_list contracts left inner.length info.logs.length inner 0 with
      | .error e => .error e
      | .ok childLines =>
        .ok ((if 4 ≤ info.data.length then
                RenderLine.rawCall left info.addr (info.data.take 4) (info.data.drop 4)
              else
                RenderLine.rawCallShort left info.addr info.data)
          :: childLines ++ unmatched_log_lines left info.logs.length info.logs 0)

/-- The child loop of pretty_print: child i gets the terminal connector
exactly when it is the last child and there are no logs, and the recursive
prefix replaces the branch connector of left with a continuation bar. -/
def pretty_print_list (contracts : Contracts) (left : String) (n logsLen : Nat) :
    List CallTrace → Nat → Except RenderErr (List RenderLine)
  | [], _ => .ok []
  | c :: cs, i =>
    match c.pretty_print contracts
        (left.replace ("├─ ") ("|  ") ++
          (if i = n - 1 ∧ logsLen = 0 then ("└─ ") else ("├─ "))) with
    | .error e => .error e
    | .ok ls =>
      match pretty_print_list contracts left n logsLen cs (i + 1) with
      | .error e => .error e
      | .ok ls2 => .ok (ls ++ ls2)

end

/-!
Specification-side definitions used to state the claims: the preorder node
list of a tree, the depth invariant of the data model (each child is one
level deeper than its parent), the list of leaf depths, and the relation
"the new tree is the old tree with exactly the fragment appended at the end
of the child list of one node, at child index L".
-/

mutual

/-- All nodes of the subtree in depth-first preorder (the node itself
followed by the preorders of its children, left to right). -/
def preorder : CallTrace → List CallTrace
  | .mk info inner => .mk info inner :: preorderList inner

/-- Concatenated preorders of a list of trees. -/
def preorderList : List CallTrace → List CallTrace
  | [] => []
  | c :: cs => preorder c ++ preorderList cs

end

mutual

/-- The depth invariant of the data model: every child is exactly one
level deeper than its parent, recursively. -/
def wfDepths : CallTrace → Bool
  | .mk info inner => wfDepthsList info.depth inner

/-- The children of a node of depth d all have depth d + 1 and satisfy the
invariant themselves. -/
def wfDepthsList (d : Nat) : List CallTrace → Bool
  | [] => true
  | c :: cs => (c.depth == d + 1) && wfDepths c && wfDepthsList d cs

end

mutual

/-- The depths of the leaves (nodes with an empty child list) of a tree. -/
def leafDepths : CallTrace → List Nat
  | .mk info [] => [info.depth]
  | .mk _ (c :: cs) => leafDepthsList (c :: cs)

/-- Concatenated leaf depths of a list of trees. -/
def leafDepthsList : List CallTrace → List Nat
  | [] => []
  | c :: cs => leafDepths c ++ leafDepthsList cs

end

/-- AppendsAt t L old new holds when new is old with the single fragment t
appended at the end of the child list of exactly one node reachable along
the last-child spine, at child index L; every other node, every field and
every other child list is unchanged. -/
inductive AppendsAt (t : CallTrace) (L : Nat) : CallTrace → CallTrace → Prop where
  | here (info : TraceInfo) (inner : List CallTrace) (h : inner.length = L) :
      AppendsAt t L (.mk info inner) (.mk info (inner ++ [t]))
  | deeper (info : TraceInfo) (cs : List CallTrace) (c c2 : CallTrace)
      (h : AppendsAt t L c c2) :
      AppendsAt t L (.mk info (cs ++ [c])) (.mk info (cs ++ [c2]))

/-!
Helper lemmas: a member-wise induction principle for the nested tree type,
decomposition of a nonempty list into an initial segment plus last element,
and the behaviour of the last-element helpers on such a decomposition.
-/

/-- Induction over CallTrace via the members of the child list. -/
theorem CallTrace.myInduction (P : CallTrace → Prop)
    (h : ∀ info inner, (∀ c ∈ inner, P c) → P (.mk info inner)) : ∀ t, P t
  | .mk info inner => h info inner (fun c hc => myInduction P h c)
termination_by t => sizeOf t
decreasing_by
  simp only [CallTrace.mk.sizeOf_spec]
  have := List.sizeOf_lt_of_mem hc
  omega

/-- A nonempty list of traces is an initial segment plus a last element. -/
theorem exists_concat_of_ne_nil (l : List CallTrace) (h : l ≠ []) :
    ∃ l2 c, l = l2 ++ [c] := by
  rcases List.eq_nil_or_concat l with h2 | h2
  · exact absurd h2 h
  · obtain ⟨L, b, hb⟩ := h2
    exact ⟨L, b, by simpa using hb⟩

/-- add_trace_last acts on the last element only. -/
theorem add_trace_last_concat (l : List CallTrace) (c t : CallTrace) :
    add_trace_last (l ++ [c]) t =
      match c.add_trace t with
      | .ok c2 => .ok (l ++ [c2])
      | .error e => .error e := by
  induction l with
  | nil => simp only [List.nil_append, add_trace_last]
  | cons x xs ih =>
    cases xs with
    | nil =>
      simp [add_trace_last]
      cases c.add_trace t <;> simp [add_trace_last]
    | cons y ys =>
      simp [add_trace_last] at ih ⊢
      rw [ih]
      cases c.add_trace t <;> simp

/-- update_trace_last acts on the last element only. -/
theorem update_trace_last_concat (l : List CallTrace) (c t : CallTrace) :
    update_trace_last (l ++ [c]) t =
      match c.update_trace t with
      | .ok c2 => .ok (l ++ [c2])
      | .error e => .error e := by
  induction l with
  | nil => simp only [List.nil_append, update_trace_last]
  | cons x xs ih =>
    cases xs with
    | nil =>
      simp [update_trace_last]
      cases c.update_trace t <;> simp [update_trace_last]
    | cons y ys =>
      simp [update_trace_last] at ih ⊢
      rw [ih]
      cases c.update_trace t <;> simp

/-- location_last reads the last element only. -/
theorem location_last_concat (l : List CallTrace) (c t : CallTrace) :
    location_last (l ++ [c]) t = c.location t := by
  induction l with
  | nil => simp only [List.nil_append, location_last]
  | cons x xs ih =>
    cases xs with
    | nil => simp [location_last]
    | cons y ys => simpa [location_last] using ih

/-- The depth accessor on a literal node. -/
@[simp] theorem CallTrace.depth_mk (info : TraceInfo) (inner : List CallTrace) :
    (CallTrace.mk info inner).depth = info.depth := rfl

/-- Membership form of the list depth invariant. -/
theorem wf_mem (d : Nat) (l : List CallTrace) (c : CallTrace)
    (hwf : wfDepthsList d l = true) (hc : c ∈ l) :
    c.depth = d + 1 ∧ wfDepths c = true := by
  induction l with
  | nil => cases hc
  | cons x xs ih =>
    simp only [wfDepthsList, Bool.and_eq_true, beq_iff_eq] at hwf
    obtain ⟨⟨h1, h2⟩, h3⟩ := hwf
    rcases List.mem_cons.mp hc with h | h
    · subst h; exact ⟨h1, h2⟩
    · exact ih h3 h

/-- Every tree has at least one leaf. -/
theorem leafDepths_ne_nil : ∀ t : CallTrace, leafDepths t ≠ [] := by
  intro t
  induction t using CallTrace.myInduction with
  | h info inner ih =>
    cases inner with
    | nil => simp [leafDepths]
    | cons c cs =>
      have h1 := ih c (by simp)
      simp only [leafDepths, leafDepthsList, ne_eq, List.append_eq_nil]
      intro h2
      exact absurd h2.1 h1

/-- Leaf depths of a member are leaf depths of the list. -/
theorem leafDepths_sub (l : List CallTrace) (c : CallTrace) (hc : c ∈ l) :
    ∀ x ∈ leafDepths c, x ∈ leafDepthsList l := by
  induction l with
  | nil => cases hc
  | cons y ys ih =>
    intro x hx
    simp only [leafDepthsList, List.mem_append]
    rcases List.mem_cons.mp hc with h | h
    · subst h; exact Or.inl hx
    · exact Or.inr (ih h x hx)

/-- Under the depth invariant, a node is strictly shallower than any bound
on its leaf depths. -/
theorem depth_lt_of_wf_leaves (D : Nat) (tree : CallTrace)
    (hwf : wfDepths tree = true) (hleaf : ∀ L ∈ leafDepths tree, L < D) :
    tree.depth < D := by
  induction tree using CallTrace.myInduction with
  | h info inner ih =>
    cases inner with
    | nil =>
      have := hleaf info.depth (by simp [leafDepths])
      simpa [CallTrace.depth, CallTrace.info] using this
    | cons c cs =>
      have hwl : wfDepthsList info.depth (c :: cs) = true := by
        simpa [wfDepths] using hwf
      obtain ⟨hcd, hcwf⟩ := wf_mem info.depth (c :: cs) c hwl (by simp)
      have hcleaf : ∀ L ∈ leafDepths c, L < D := by
        intro L hL
        exact hleaf L (leafDepths_sub (c :: cs) c (by simp) L hL)
      have hlt := ih c (by simp) hcwf hcleaf
      simp only [CallTrace.depth, CallTrace.info] at hlt hcd ⊢
      omega

/-- Under the depth invariant, a fragment two deeper than every leaf sends
add_trace down the whole last-child spine into a disconnected error. -/
theorem add_disconnected_of_leaves (t : CallTrace) :
    ∀ tree : CallTrace, wfDepths tree = true →
      (∀ L ∈ leafDepths tree, L + 2 ≤ t.depth) →
      tree.add_trace t = .error .disconnected := by
  intro tree
  induction tree using CallTrace.myInduction with
  | h info inner ih =>
    intro hwf hleaf
    obtain ⟨L, hL⟩ := List.exists_mem_of_ne_nil _ (leafDepths_ne_nil (.mk info inner))
    have ht0 : t.depth ≠ 0 := by have := hleaf L hL; omega
    have hlt : (CallTrace.mk info inner).depth < t.depth - 1 := by
      apply depth_lt_of_wf_leaves (t.depth - 1) _ hwf
      intro L2 hL2
      have := hleaf L2 hL2
      omega
    have hdne : info.depth ≠ t.depth - 1 := by
      rw [CallTrace.depth_mk] at hlt
      omega
    cases inner with
    | nil => simp [CallTrace.add_trace, ht0, hdne, add_trace_last]
    | cons c cs =>
      obtain ⟨l2, clast, hconcat⟩ := exists_concat_of_ne_nil (c :: cs) (by simp)
      have hcmem : clast ∈ c :: cs := by rw [hconcat]; simp
      have hwl : wfDepthsList info.depth (c :: cs) = true := by
        simpa [wfDepths] using hwf
      have hcwf : wfDepths clast = true := (wf_mem info.depth (c :: cs) clast hwl hcmem).2
      have hcleaf : ∀ L2 ∈ leafDepths clast, L2 + 2 ≤ t.depth := by
        intro L2 h2
        exact hleaf L2 (leafDepths_sub (c :: cs) clast hcmem L2 h2)
      have hrec := ih clast hcmem hcwf hcleaf
      have step : (CallTrace.mk info (c :: cs)).add_trace t =
          match add_trace_last (c :: cs) t with
          | .ok inner2 => .ok (.mk info inner2)
          | .error e => .error e := by
        simp [CallTrace.add_trace, ht0, hdne]
      rw [step, hconcat, add_trace_last_concat, hrec]

/-- Claim C1: add_trace, update_trace and location all raise the
disconnected-trace error as soon as the recursive descent (taken whenever
the fragment depth is nonzero and the current node is not the direct
parent) reaches a node with an empty child list; and, in particular, on a
tree satisfying the depth invariant, add_trace with a fragment whose depth
is at least two greater than every leaf depth fails with that error. -/
theorem C1_disconnected_errors (info : TraceInfo) (t tree : CallTrace)
    (h0 : t.depth ≠ 0) (h1 : info.depth ≠ t.depth - 1) :
    (CallTrace.mk info []).add_trace t = .error .disconnected ∧
    (CallTrace.mk info []).update_trace t = .error .disconnected ∧
    (CallTrace.mk info []).location t = .error .disconnected ∧
    (wfDepths tree = true → (∀ L ∈ leafDepths tree, L + 2 ≤ t.depth) →
      tree.add_trace t = .error .disconnected) := by
  refine ⟨?_, ?_, ?_, ?_⟩
  · simp [CallTrace.add_trace, h0, h1, add_trace_last]
  · simp [CallTrace.update_trace, h0, h1, update_trace_last]
  · simp [CallTrace.location, h0, h1, location_last]
  · intro hwf hleaf
    exact add_disconnected_of_leaves t tree hwf hleaf

/-- A concrete minimal-field scalar record used by the witnesses. -/
def sampleInfo (d l : Nat) : TraceInfo := ⟨d, l, false, 0, false, [], 0, [], []⟩

/-- A concrete childless node used by the witnesses. -/
def sampleLeaf (d l : Nat) : CallTrace := .mk (sampleInfo d l) []

/-- Witness for C1: a depth-2 fragment against a bare depth-0 root. -/
theorem C1_witness :
    ((sampleLeaf 2 0).depth ≠ 0 ∧ (sampleInfo 0 0).depth ≠ (sampleLeaf 2 0).depth - 1 ∧
     wfDepths (sampleLeaf 0 0) = true ∧
     (∀ L ∈ leafDepths (sampleLeaf 0 0), L + 2 ≤ (sampleLeaf 2 0).depth)) ∧
    (sampleLeaf 0 0).add_trace (sampleLeaf 2 0) = .error .disconnected :=
  ⟨⟨by decide, by decide, by decide, by decide⟩,
   (C1_disconnected_errors (sampleInfo 0 0) (sampleLeaf 2 0) (sampleLeaf 0 0)
      (by decide) (by decide)).2.2.2 (by decide) (by decide)⟩

/-- Claim C6: a depth-0 fragment makes add_trace a no-op, returning the
tree unchanged (the overwrite in that branch is commented out in the
source). -/
theorem C6_add_depth0_noop (tree t : CallTrace) (h : t.depth = 0) :
    tree.add_trace t = .ok tree := by
  cases tree with
  | mk info inner => simp [CallTrace.add_trace, h]

/-- Witness for C6: a depth-0 fragment against a concrete root. -/
theorem C6_witness :
    (sampleLeaf 0 1).depth = 0 ∧
    (sampleLeaf 0 0).add_trace (sampleLeaf 0 1) = .ok (sampleLeaf 0 0) :=
  ⟨by decide, C6_add_depth0_noop (sampleLeaf 0 0) (sampleLeaf 0 1) (by decide)⟩

/-- Claim C9: in the direct-parent branch of update_trace, the child
index new_trace.location is taken without a bounds check: an index at or
past the child count fails with the out-of-bounds error (distinct from the
disconnected-trace error), and an in-bounds index succeeds. -/
theorem C9_update_oob (info : TraceInfo) (inner : List CallTrace) (t : CallTrace)
    (h0 : t.depth ≠ 0) (h1 : info.depth = t.depth - 1) :
    (inner.length ≤ t.info.location →
      (CallTrace.mk info inner).update_trace t = .error .indexOutOfBounds) ∧
    (t.info.location < inner.length →
      ∃ u, (CallTrace.mk info inner).update_trace t = .ok u) ∧
    TraceErr.indexOutOfBounds ≠ TraceErr.disconnected := by
  refine ⟨?_, ?_, by decide⟩
  · intro hlen
    simp [CallTrace.update_trace, h0, h1, List.getElem?_eq_none hlen]
  · intro hlen
    have h2 : inner[t.info.location]? ≠ none := by
      simp only [ne_eq, List.getElem?_eq_none_iff]
      omega
    match h3 : inner[t.info.location]? with
    | none => exact absurd h3 h2
    | some c =>
      refine ⟨.mk info (inner.set t.info.location (c.update t)), ?_⟩
      simp [CallTrace.update_trace, h0, h1, h3]

/-- Witness for C9: location 0 against an empty child list is
out-of-bounds. -/
theorem C9_witness :
    ((sampleLeaf 1 0).depth ≠ 0 ∧ (sampleInfo 0 0).depth = (sampleLeaf 1 0).depth - 1 ∧
     ([] : List CallTrace).length ≤ (sampleLeaf 1 0).info.location) ∧
    (CallTrace.mk (sampleInfo 0 0) []).update_trace (sampleLeaf 1 0) =
      .error .indexOutOfBounds :=
  ⟨⟨by decide, by decide, by decide⟩,
   (C9_update_oob (sampleInfo 0 0) [] (sampleLeaf 1 0) (by decide) (by decide)).1 (by decide)⟩

/-- preorderList distributes over list concatenation. -/
theorem preorderList_append (l1 l2 : List CallTrace) :
    preorderList (l1 ++ l2) = preorderList l1 ++ preorderList l2 := by
  induction l1 with
  | nil => simp [preorderList]
  | cons c cs ih => simp [preorderList, ih]

/-- Appending a fragment subtree grows the preorder node list by exactly
the nodes of the fragment. -/
theorem appendsAt_preorder_length (t : CallTrace) (L : Nat) (a b : CallTrace)
    (h : AppendsAt t L a b) :
    (preorder b).length = (preorder a).length + (preorder t).length := by
  induction h with
  | here info inner hlen =>
    simp [preorder, preorderList_append, preorderList]
    omega
  | deeper info cs c c2 h ih =>
    simp [preorder, preorderList_append, preorderList] at ih ⊢
    omega

/-- A successful add_trace with a nonzero-depth fragment appends exactly
that fragment at the end of the child list of one spine node. -/
theorem add_ok_appendsAt (t : CallTrace) (hd : 1 ≤ t.depth) :
    ∀ tree tree2 : CallTrace, tree.add_trace t = .ok tree2 →
      ∃ L, AppendsAt t L tree tree2 := by
  intro tree
  induction tree using CallTrace.myInduction with
  | h info inner ih =>
    intro tree2 hadd
    have ht0 : ¬ t.depth = 0 := by omega
    by_cases hdp : info.depth = t.depth - 1
    · have step : (CallTrace.mk info inner).add_trace t = .ok (.mk info (inner ++ [t])) := by
        simp [CallTrace.add_trace, ht0, hdp]
      rw [step] at hadd
      injection hadd with h2
      exact ⟨inner.length, h2 ▸ AppendsAt.here info inner rfl⟩
    · cases inner with
      | nil =>
        have step : (CallTrace.mk info []).add_trace t = .error .disconnected := by
          simp [CallTrace.add_trace, ht0, hdp, add_trace_last]
        rw [step] at hadd
        simp at hadd
      | cons c cs =>
        obtain ⟨l2, clast, hconcat⟩ := exists_concat_of_ne_nil (c :: cs) (by simp)
        have step : (CallTrace.mk info (c :: cs)).add_trace t =
            match add_trace_last (c :: cs) t with
            | .ok inner2 => .ok (.mk info inner2)
            | .error e => .error e := by
          simp [CallTrace.add_trace, ht0, hdp]
        rw [step, hconcat, add_trace_last_concat] at hadd
        cases hct : clast.add_trace t with
        | error e => rw [hct] at hadd; simp at hadd
        | ok c2 =>
          rw [hct] at hadd
          simp only [Except.ok.injEq] at hadd
          obtain ⟨L, hL⟩ := ih clast (by rw [hconcat]; simp) c2 hct
          refine ⟨L, ?_⟩
          rw [hconcat, ← hadd]
          exact AppendsAt.deeper info l2 clast c2 hL

/-- Claim C2: when the current node is the direct parent (its depth is one
less than the fragment depth) add_trace appends the fragment as the new
last child; and every successful add_trace with a nonzero-depth fragment
changes the tree exactly by appending the fragment at the end of the child
list of one node (every existing field and every other child list is
unchanged, as captured by AppendsAt), in particular growing the node count
by exactly one when the fragment is childless. -/
theorem C2_add_appends (info : TraceInfo) (inner : List CallTrace)
    (t tree tree2 : CallTrace) (hd : 1 ≤ t.depth) :
    (info.depth = t.depth - 1 →
      (CallTrace.mk info inner).add_trace t = .ok (.mk info (inner ++ [t]))) ∧
    (tree.add_trace t = .ok tree2 →
      (∃ L, AppendsAt t L tree tree2) ∧
      (t.inner = [] → (preorder tree2).length = (preorder tree).length + 1)) := by
  have ht0 : ¬ t.depth = 0 := by omega
  constructor
  · intro hdp
    simp [CallTrace.add_trace, ht0, hdp]
  · intro hadd
    obtain ⟨L, hL⟩ := add_ok_appendsAt t hd tree tree2 hadd
    refine ⟨⟨L, hL⟩, ?_⟩
    intro hleafT
    have hlen := appendsAt_preorder_length t L tree tree2 hL
    have h1 : (preorder t).length = 1 := by
      cases t with
      | mk ti tinner =>
        simp only [CallTrace.inner] at hleafT
        subst hleafT
        simp [preorder, preorderList]
    omega

/-- Witness for C2: adding a depth-1 fragment to a bare depth-0 root. -/
theorem C2_witness :
    1 ≤ (sampleLeaf 1 0).depth ∧
    (((sampleInfo 0 0).depth = (sampleLeaf 1 0).depth - 1 →
      (CallTrace.mk (sampleInfo 0 0) []).add_trace (sampleLeaf 1 0) =
        .ok (.mk (sampleInfo 0 0) ([] ++ [sampleLeaf 1 0]))) ∧
    ((sampleLeaf 0 0).add_trace (sampleLeaf 1 0) =
        .ok (CallTrace.mk (sampleInfo 0 0) [sampleLeaf 1 0]) →
      (∃ L, AppendsAt (sampleLeaf 1 0) L (sampleLeaf 0 0)
          (CallTrace.mk (sampleInfo 0 0) [sampleLeaf 1 0])) ∧
      ((sampleLeaf 1 0).inner = [] →
        (preorder (CallTrace.mk (sampleInfo 0 0) [sampleLeaf 1 0])).length =
          (preorder (sampleLeaf 0 0)).length + 1))) :=
  ⟨by decide,
   C2_add_appends (sampleInfo 0 0) [] (sampleLeaf 1 0) (sampleLeaf 0 0)
     (CallTrace.mk (sampleInfo 0 0) [sampleLeaf 1 0]) (by decide)⟩

/-- A successful location query predicts the child index that add_trace
will use: the same descent succeeds and appends the fragment at exactly
that index. -/
theorem location_ok_add (t : CallTrace) (hd : 1 ≤ t.depth) :
    ∀ tree : CallTrace, ∀ L, tree.location t = .ok L →
      ∃ tree2, tree.add_trace t = .ok tree2 ∧ AppendsAt t L tree tree2 := by
  intro tree
  induction tree using CallTrace.myInduction with
  | h info inner ih =>
    intro L hloc
    have ht0 : ¬ t.depth = 0 := by omega
    by_cases hdp : info.depth = t.depth - 1
    · have step : (CallTrace.mk info inner).location t = .ok inner.length := by
        simp [CallTrace.location, ht0, hdp]
      rw [step] at hloc
      injection hloc with h2
      refine ⟨.mk info (inner ++ [t]), ?_, ?_⟩
      · simp [CallTrace.add_trace, ht0, hdp]
      · exact AppendsAt.here info inner h2
    · cases inner with
      | nil =>
        have step : (CallTrace.mk info []).location t = .error .disconnected := by
          simp [CallTrace.location, ht0, hdp, location_last]
        rw [step] at hloc
        simp at hloc
      | cons c cs =>
        obtain ⟨l2, clast, hconcat⟩ := exists_concat_of_ne_nil (c :: cs) (by simp)
        have step : (CallTrace.mk info (c :: cs)).location t = clast.location t := by
          simp only [CallTrace.location, if_neg ht0, if_neg hdp]
          rw [hconcat, location_last_concat]
        rw [step] at hloc
        obtain ⟨c2, hc2, hApp⟩ := ih clast (by rw [hconcat]; simp) L hloc
        refine ⟨.mk info (l2 ++ [c2]), ?_, ?_⟩
        · have step2 : (CallTrace.mk info (c :: cs)).add_trace t =
              match add_trace_last (c :: cs) t with
              | .ok inner2 => .ok (.mk info inner2)
              | .error e => .error e := by
            simp [CallTrace.add_trace, ht0, hdp]
          rw [step2, hconcat, add_trace_last_concat, hc2]
        · rw [hconcat]
          exact AppendsAt.deeper info l2 clast c2 hApp

/-- Claim C4: location follows the same descent as add_trace (direct
parent gives the current child count, otherwise the query recurses into
the last child), and a successful location result L is exactly the child
index at which a subsequent add_trace on the unchanged tree places the
fragment. -/
theorem C4_locate_predicts_add (info : TraceInfo) (inner : List CallTrace)
    (t tree : CallTrace) (L : Nat) (hd : 1 ≤ t.depth) :
    (info.depth = t.depth - 1 →
      (CallTrace.mk info inner).location t = .ok inner.length) ∧
    (info.depth ≠ t.depth - 1 →
      (CallTrace.mk info inner).location t = location_last inner t) ∧
    (tree.location t = .ok L →
      ∃ tree2, tree.add_trace t = .ok tree2 ∧ AppendsAt t L tree tree2) := by
  have ht0 : ¬ t.depth = 0 := by omega
  refine ⟨?_, ?_, ?_⟩
  · intro hdp
    simp [CallTrace.location, ht0, hdp]
  · intro hdp
    simp [CallTrace.location, ht0, hdp]
  · intro hloc
    exact location_ok_add t hd tree L hloc

/-- Witness for C4: locating then adding a depth-1 fragment under a bare
depth-0 root, at child index 0. -/
theorem C4_witness :
    1 ≤ (sampleLeaf 1 0).depth ∧
    (((sampleInfo 0 0).depth = (sampleLeaf 1 0).depth - 1 →
      (CallTrace.mk (sampleInfo 0 0) []).location (sampleLeaf 1 0) =
        .ok ([] : List CallTrace).length) ∧
    ((sampleInfo 0 0).depth ≠ (sampleLeaf 1 0).depth - 1 →
      (CallTrace.mk (sampleInfo 0 0) []).location (sampleLeaf 1 0) =
        location_last [] (sampleLeaf 1 0)) ∧
    ((sampleLeaf 0 0).location (sampleLeaf 1 0) = .ok 0 →
      ∃ tree2, (sampleLeaf 0 0).add_trace (sampleLeaf 1 0) = .ok tree2 ∧
        AppendsAt (sampleLeaf 1 0) 0 (sampleLeaf 0 0) tree2)) :=
  ⟨by decide,
   C4_locate_predicts_add (sampleInfo 0 0) [] (sampleLeaf 1 0) (sampleLeaf 0 0) 0 (by decide)⟩

/-- Unfolded form of the field overwrite done by update. -/
theorem update_def (info : TraceInfo) (inner : List CallTrace) (t : CallTrace) :
    (CallTrace.mk info inner).update t =
      .mk { info with
        success := t.info.success
        addr := t.info.addr
        cost := t.info.cost
        output := t.info.output
        logs := t.info.logs
        data := t.info.data } inner := by
  cases t
  rfl

/-- The field overwrite of update is idempotent. -/
theorem update_update (a t : CallTrace) : (a.update t).update t = a.update t := by
  cases a
  cases t
  rfl

/-- A successful update_trace result is a fixed point of updating again
with the same fragment. -/
theorem update_trace_idem (t : CallTrace) :
    ∀ tree u : CallTrace, tree.update_trace t = .ok u → u.update_trace t = .ok u := by
  intro tree
  induction tree using CallTrace.myInduction with
  | h info inner ih =>
    intro u hupd
    by_cases ht0 : t.depth = 0
    · have step : (CallTrace.mk info inner).update_trace t =
          .ok ((CallTrace.mk info inner).update t) := by
        simp [CallTrace.update_trace, ht0]
      rw [step] at hupd
      simp only [Except.ok.injEq] at hupd
      subst hupd
      rw [update_def]
      have step2 : ∀ (i2 : TraceInfo),
          (CallTrace.mk i2 inner).update_trace t = .ok ((CallTrace.mk i2 inner).update t) := by
        intro i2
        simp [CallTrace.update_trace, ht0]
      rw [step2, update_def]
    · by_cases hdp : info.depth = t.depth - 1
      · cases hget : inner[t.info.location]? with
        | none =>
          have step : (CallTrace.mk info inner).update_trace t = .error .indexOutOfBounds := by
            simp [CallTrace.update_trace, ht0, hdp, hget]
          rw [step] at hupd
          simp at hupd
        | some c =>
          have hlt : t.info.location < inner.length := by
            have := List.getElem?_eq_some_iff.mp hget
            exact this.1
          have step : (CallTrace.mk info inner).update_trace t =
              .ok (.mk info (inner.set t.info.location (c.update t))) := by
            simp [CallTrace.update_trace, ht0, hdp, hget]
          rw [step] at hupd
          simp only [Except.ok.injEq] at hupd
          subst hupd
          have hget2 : (inner.set t.info.location (c.update t))[t.info.location]? =
              some (c.update t) :=
            List.getElem?_set_self (by simpa using hlt)
          have step2 : (CallTrace.mk info (inner.set t.info.location (c.update t))).update_trace t =
              .ok (.mk info ((inner.set t.info.location (c.update t)).set t.info.location
                ((c.update t).update t))) := by
            simp [CallTrace.update_trace, ht0, hdp, hget2]
          rw [step2, update_update, List.set_set]
      · cases inner with
        | nil =>
          have step : (CallTrace.mk info []).update_trace t = .error .disconnected := by
            simp [CallTrace.update_trace, ht0, hdp, update_trace_last]
          rw [step] at hupd
          simp at hupd
        | cons c cs =>
          obtain ⟨l2, clast, hconcat⟩ := exists_concat_of_ne_nil (c :: cs) (by simp)
          have step : (CallTrace.mk info (c :: cs)).update_trace t =
              match update_trace_last (c :: cs) t with
              | .ok inner2 => .ok (.mk info inner2)
              | .error e => .error e := by
            simp [CallTrace.update_trace, ht0, hdp]
          rw [step, hconcat, update_trace_last_concat] at hupd
          cases hct : clast.update_trace t with
          | error e => rw [hct] at hupd; simp at hupd
          | ok c2 =>
            rw [hct] at hupd
            simp only [Except.ok.injEq] at hupd
            subst hupd
            have hc2 := ih clast (by rw [hconcat]; simp) c2 hct
            have step2 : (CallTrace.mk info (l2 ++ [c2])).update_trace t =
                match update_trace_last (l2 ++ [c2]) t with
                | .ok inner2 => .ok (.mk info inner2)
                | .error e => .error e := by
              simp [CallTrace.update_trace, ht0, hdp]
            rw [step2, update_trace_last_concat, hc2]

/-- Claim C3: a depth-0 fragment makes update_trace overwrite the result
fields of the root in place (success, addr, cost, output, logs, data),
preserving depth, location, created and the whole child list; and in the
direct-parent case the identical field overwrite, with children preserved,
is applied to the addressed child new_trace.location. -/
theorem C3_update_overwrites (tree t : CallTrace) (info : TraceInfo)
    (inner : List CallTrace) (c : CallTrace) :
    (t.depth = 0 → tree.update_trace t = .ok (tree.update t)) ∧
    ((tree.update t).inner = tree.inner ∧
     (tree.update t).info.depth = tree.info.depth ∧
     (tree.update t).info.location = tree.info.location ∧
     (tree.update t).info.created = tree.info.created ∧
     (tree.update t).info.success = t.info.success ∧
     (tree.update t).info.addr = t.info.addr ∧
     (tree.update t).info.cost = t.info.cost ∧
     (tree.update t).info.output = t.info.output ∧
     (tree.update t).info.logs = t.info.logs ∧
     (tree.update t).info.data = t.info.data) ∧
    (t.depth ≠ 0 → info.depth = t.depth - 1 → inner[t.info.location]? = some c →
      (CallTrace.mk info inner).update_trace t =
        .ok (.mk info (inner.set t.info.location (c.update t)))) := by
  refine ⟨?_, ?_, ?_⟩
  · intro h0
    cases tree with
    | mk i2 l2 => simp [CallTrace.update_trace, h0]
  · cases tree
    cases t
    simp [CallTrace.update, CallTrace.info, CallTrace.inner]
  · intro h0 h1 hget
    simp [CallTrace.update_trace, h0, h1, hget]

/-- A concrete close fragment with every result field distinct from the
defaults, used by the witnesses. -/
def sampleFrag (d l : Nat) : CallTrace :=
  .mk ⟨d, l, true, 9, false, [1, 2], 7, [3], [⟨[5], [6]⟩]⟩ []

/-- Witness for C3: a depth-0 overwrite of a bare root, and a depth-1
overwrite of the only child. -/
theorem C3_witness :
    ((sampleFrag 0 0).depth = 0 ∧
     (sampleLeaf 0 0).update_trace (sampleFrag 0 0) =
       .ok ((sampleLeaf 0 0).update (sampleFrag 0 0))) ∧
    ((sampleFrag 1 0).depth ≠ 0 ∧
     (sampleInfo 0 0).depth = (sampleFrag 1 0).depth - 1 ∧
     ([sampleLeaf 1 0][(sampleFrag 1 0).info.location]?) = some (sampleLeaf 1 0) ∧
     (CallTrace.mk (sampleInfo 0 0) [sampleLeaf 1 0]).update_trace (sampleFrag 1 0) =
       .ok (.mk (sampleInfo 0 0)
         ([sampleLeaf 1 0].set (sampleFrag 1 0).info.location
           ((sampleLeaf 1 0).update (sampleFrag 1 0))))) :=
  ⟨⟨by decide,
    (C3_update_overwrites (sampleLeaf 0 0) (sampleFrag 0 0) (sampleInfo 0 0) []
      (sampleLeaf 0 0)).1 (by decide)⟩,
   ⟨by decide, by decide, by rfl,
    (C3_update_overwrites (CallTrace.mk (sampleInfo 0 0) [sampleLeaf 1 0]) (sampleFrag 1 0)
      (sampleInfo 0 0) [sampleLeaf 1 0] (sampleLeaf 1 0)).2.2 (by decide) (by decide) (by rfl)⟩⟩

/-- Claim C5: update_trace is idempotent per fragment: a tree produced by a
successful update with a close fragment is left exactly fixed by a second
update with the same fragment. -/
theorem C5_update_idempotent (tree t u : CallTrace)
    (h : tree.update_trace t = .ok u) : u.update_trace t = .ok u :=
  update_trace_idem t tree u h

/-- Witness for C5: the depth-0 overwrite of a bare root, applied twice. -/
theorem C5_witness :
    (sampleLeaf 0 0).update_trace (sampleFrag 0 0) =
      .ok ((sampleLeaf 0 0).update (sampleFrag 0 0)) ∧
    ((sampleLeaf 0 0).update (sampleFrag 0 0)).update_trace (sampleFrag 0 0) =
      .ok ((sampleLeaf 0 0).update (sampleFrag 0 0)) :=
  ⟨by rfl, C5_update_idempotent (sampleLeaf 0 0) (sampleFrag 0 0)
    ((sampleLeaf 0 0).update (sampleFrag 0 0)) (by rfl)⟩

/-- The list accumulation of inner_number_of_inners is the sum of the
member counts. -/
theorem inner_number_of_inners_list_sum (l : List CallTrace) :
    inner_number_of_inners_list l = (l.map CallTrace.inner_number_of_inners).sum := by
  induction l with
  | nil => rfl
  | cons c cs ih => simp [inner_number_of_inners_list, ih]

/-- Summing the descendant counts plus the child count over a list of
subtrees gives the total preorder node count of the list. -/
theorem inner_count_list (l : List CallTrace)
    (h : ∀ c ∈ l, c.inner_number_of_inners + 1 = (preorder c).length) :
    inner_number_of_inners_list l + l.length = (preorderList l).length := by
  induction l with
  | nil => simp [inner_number_of_inners_list, preorderList]
  | cons c cs ih =>
    have hc := h c (by simp)
    have hcs := ih (fun x hx => h x (by simp [hx]))
    simp only [inner_number_of_inners_list, preorderList, List.length_cons, List.length_append]
    omega

/-- inner_number_of_inners counts every preorder node except the root of
the subtree. -/
theorem inner_count_preorder : ∀ t : CallTrace,
    t.inner_number_of_inners + 1 = (preorder t).length := by
  intro t
  induction t using CallTrace.myInduction with
  | h info inner ih =>
    have h2 := inner_count_list inner ih
    simp only [CallTrace.inner_number_of_inners, preorder, List.length_cons]
    omega

/-- Claim C7: inner_number_of_inners counts all nodes of the subtree
excluding the node itself (one less than the preorder node count), and
satisfies the recurrence child count plus the sum of the child counts. -/
theorem C7_descendant_count (tree : CallTrace) :
    tree.inner_number_of_inners + 1 = (preorder tree).length ∧
    tree.inner_number_of_inners =
      tree.inner.length + (tree.inner.map CallTrace.inner_number_of_inners).sum := by
  refine ⟨inner_count_preorder tree, ?_⟩
  cases tree with
  | mk info inner =>
    simp only [CallTrace.inner_number_of_inners, CallTrace.inner,
      inner_number_of_inners_list_sum]
    omega

/-- Membership in the preorder of a list factors through a member tree. -/
theorem mem_preorderList (l : List CallTrace) (n : CallTrace) :
    n ∈ preorderList l ↔ ∃ c ∈ l, n ∈ preorder c := by
  induction l with
  | nil => simp [preorderList]
  | cons c cs ih =>
    simp only [preorderList, List.mem_append, ih, List.mem_cons]
    constructor
    · rintro (h | ⟨c2, hc2, hn⟩)
      · exact ⟨c, Or.inl rfl, h⟩
      · exact ⟨c2, Or.inr hc2, hn⟩
    · rintro ⟨c2, hc2 | hc2, hn⟩
      · subst hc2; exact Or.inl hn
      · exact Or.inr ⟨c2, hc2, hn⟩

/-- Under the depth invariant, every preorder node of a tree is at least
as deep as the root of that tree. -/
theorem preorder_depth_ge : ∀ t : CallTrace, wfDepths t = true →
    ∀ n ∈ preorder t, t.depth ≤ n.depth := by
  intro t
  induction t using CallTrace.myInduction with
  | h info inner ih =>
    intro hwf n hn
    simp only [preorder, List.mem_cons] at hn
    rcases hn with hn | hn
    · subst hn; exact Nat.le_refl _
    · obtain ⟨c, hc, hnc⟩ := (mem_preorderList inner n).mp hn
      have hwl : wfDepthsList info.depth inner = true := by
        simpa [wfDepths] using hwf
      obtain ⟨hcd, hcwf⟩ := wf_mem info.depth inner c hwl hc
      have := ih c hc hcwf n hnc
      simp only [CallTrace.depth_mk]
      omega

/-- get_trace on a list of subtrees matches find? on the concatenated
preorders, member by member. -/
theorem get_trace_list_dfs (d l : Nat) (ls : List CallTrace)
    (h : ∀ c ∈ ls, c.get_trace d l =
      (preorder c).find? (fun n => n.depth == d && n.info.location == l)) :
    get_trace_list ls d l =
      (preorderList ls).find? (fun n => n.depth == d && n.info.location == l) := by
  induction ls with
  | nil => rfl
  | cons c cs ih =>
    rw [preorderList, List.find?_append, ← h c (by simp),
      ← ih (fun x hx => h x (by simp [hx]))]
    cases hg : c.get_trace d l <;> simp [get_trace_list, hg]

/-- Amended claim C8: on a tree satisfying the depth invariant, get_trace
is exactly the first preorder (depth-first) node whose own depth and
location both match, and in particular yields none (not an error) when no
node matches. -/
theorem C8_find_dfs_wf (tree : CallTrace) (d l : Nat) (hwf : wfDepths tree = true) :
    tree.get_trace d l =
      (preorder tree).find? (fun n => n.depth == d && n.info.location == l) := by
  induction tree using CallTrace.myInduction with
  | h info inner ih =>
    have hwl : wfDepthsList info.depth inner = true := by
      simpa [wfDepths] using hwf
    by_cases hd : info.depth = d
    · by_cases hl : info.location = l
      · have step : (CallTrace.mk info inner).get_trace d l = some (.mk info inner) := by
          simp [CallTrace.get_trace, hd, hl]
        rw [step, preorder, List.find?_cons_of_pos]
        simp [CallTrace.depth_mk, CallTrace.info, hd, hl]
      · have step : (CallTrace.mk info inner).get_trace d l = none := by
          simp [CallTrace.get_trace, hd, hl]
        rw [step, preorder, List.find?_cons_of_neg _ (by simp [CallTrace.depth_mk, CallTrace.info, hl])]
        symm
        rw [List.find?_eq_none]
        intro n hn
        obtain ⟨c, hc, hnc⟩ := (mem_preorderList inner n).mp hn
        obtain ⟨hcd, hcwf⟩ := wf_mem info.depth inner c hwl hc
        have hge := preorder_depth_ge c hcwf n hnc
        simp only [Bool.and_eq_true, beq_iff_eq, not_and]
        intro hnd
        omega
    · have step : (CallTrace.mk info inner).get_trace d l = get_trace_list inner d l := by
        simp [CallTrace.get_trace, hd]
      rw [step, preorder, List.find?_cons_of_neg _ (by simp [CallTrace.depth_mk, CallTrace.info, hd])]
      exact get_trace_list_dfs d l inner
        (fun c hc => ih c hc (wf_mem info.depth inner c hwl hc).2)

/-- Counterexample to claim C8 as stated: on a tree violating the depth
invariant (a root of depth 0 whose child also has depth 0), the first
preorder node matching (0, 1) exists (the child) but get_trace prunes the
search at the root, whose depth already matches, and returns none. -/
theorem C8_counterexample :
    (preorder (CallTrace.mk (sampleInfo 0 0) [sampleLeaf 0 1])).find?
        (fun n => n.depth == 0 && n.info.location == 1) = some (sampleLeaf 0 1) ∧
    (CallTrace.mk (sampleInfo 0 0) [sampleLeaf 0 1]).get_trace 0 1 = none :=
  ⟨rfl, rfl⟩

/-- Witness for the amended C8 on a concrete two-node invariant tree. -/
theorem C8_witness :
    wfDepths (CallTrace.mk (sampleInfo 0 0) [sampleLeaf 1 0]) = true ∧
    (CallTrace.mk (sampleInfo 0 0) [sampleLeaf 1 0]).get_trace 1 0 =
      (preorder (CallTrace.mk (sampleInfo 0 0) [sampleLeaf 1 0])).find?
        (fun n => n.depth == 1 && n.info.location == 0) :=
  ⟨by decide, C8_find_dfs_wf (CallTrace.mk (sampleInfo 0 0) [sampleLeaf 1 0]) 1 0 (by decide)⟩

/-- With a payload shorter than 4 bytes, the function-printing pass fails
with the slice error as soon as any function overload is scanned. -/
theorem func_entry_lines_short (data : List Nat) (left : String) (cost : Nat)
    (color : Colour) (name : String) (hshort : data.length < 4) :
    ∀ fs : List (String × List AbiFunction), (∃ p ∈ fs, p.2 ≠ []) →
      func_entry_lines data left cost color name fs = .error .sliceOutOfRange := by
  intro fs
  induction fs with
  | nil =>
    rintro ⟨p, hp, _⟩
    cases hp
  | cons hd tl ih =>
    rintro ⟨p, hp, hne⟩
    obtain ⟨fname, fl⟩ := hd
    cases fl with
    | nil =>
      rcases List.mem_cons.mp hp with h | h
      · subst h; simp at hne
      · simp [func_entry_lines, func_overload_lines, ih ⟨p, h, hne⟩]
    | cons f fs2 =>
      simp [func_entry_lines, func_overload_lines, hshort]

/-- Amended claim C10: when the address of a node matches a contract whose
ABI declares at least one function overload, pretty_print evaluates the
slice data[0..4] before any selector comparison, so a matched node with a
payload shorter than 4 bytes fails with the slice error; the graceful
short-payload fallback exists only in the no-contract-match branch, which
succeeds on the same short payload. -/
theorem C10_matched_reads_selector (info : TraceInfo) (inner : List CallTrace)
    (contracts : Contracts) (name : String) (abi : Abi) (addr2 : Nat)
    (other : List String) (left : String)
    (hfind : contracts.find? (fun e => e.2.2.1 == info.addr) = some (name, abi, addr2, other))
    (hfun : ∃ p ∈ abi.functions, p.2 ≠ [])
    (hshort : info.data.length < 4) :
    (CallTrace.mk info inner).pretty_print contracts left = .error .sliceOutOfRange ∧
    (∀ (info2 : TraceInfo) (contracts2 : Contracts) (left2 : String),
      contracts2.find? (fun e => e.2.2.1 == info2.addr) = none →
      info2.data.length < 4 →
      (CallTrace.mk info2 []).pretty_print contracts2 left2 =
        .ok (RenderLine.rawCallShort left2 info2.addr info2.data ::
          unmatched_log_lines left2 info2.logs.length info2.logs 0)) := by
  constructor
  · have herr := func_entry_lines_short info.data left info.cost
      (if info.success then Colour.green else Colour.red) name hshort abi.functions hfun
    simp [CallTrace.pretty_print, hfind, herr]
  · intro info2 contracts2 left2 hnone hshort2
    have hnotle : ¬ 4 ≤ info2.data.length := by omega
    simp [CallTrace.pretty_print, hnone, hnotle, pretty_print_list]

/-- A contract entry with an empty ABI, matching address 0. -/
def c10abi : Abi := ⟨[], []⟩

/-- A contracts map whose only entry has the empty ABI and address 0. -/
def c10contracts : Contracts := [("Empty", c10abi, 0, [])]

/-- Counterexample to claim C10 as stated: a node whose address matches a
contract whose ABI declares no functions renders successfully with a
0-byte payload — rendering a matched node does not universally require a
payload of at least 4 bytes. -/
theorem C10_counterexample :
    c10contracts.find? (fun e => e.2.2.1 == (sampleInfo 0 0).addr) =
      some ("Empty", c10abi, 0, []) ∧
    (sampleInfo 0 0).data.length < 4 ∧
    (sampleLeaf 0 0).pretty_print c10contracts ("") = .ok [] :=
  ⟨rfl, by decide, rfl⟩

/-- An ABI declaring a single function with selector 1 2 3 4. -/
def c10fn : AbiFunction := ⟨[1, 2, 3, 4], fun _ => some ("()")⟩

/-- An ABI with one function overload under one name. -/
def c10abi2 : Abi := ⟨[("f", [c10fn])], []⟩

/-- A contracts map whose only entry has the one-function ABI, address 0. -/
def c10contracts2 : Contracts := [("Sample", c10abi2, 0, [])]

/-- Witness for the amended C10: a matched node with an empty payload and
a one-function ABI fails with the slice error. -/
theorem C10_witness :
    (c10contracts2.find? (fun e => e.2.2.1 == (sampleInfo 0 0).addr) =
       some ("Sample", c10abi2, 0, []) ∧
     (∃ p ∈ c10abi2.functions, p.2 ≠ []) ∧
     (sampleInfo 0 0).data.length < 4) ∧
    (sampleLeaf 0 0).pretty_print c10contracts2 ("") = .error .sliceOutOfRange :=
  ⟨⟨rfl, ⟨("f", [c10fn]), by simp [c10abi2], by simp⟩, by decide⟩,
   (C10_matched_reads_selector (sampleInfo 0 0) [] c10contracts2 ("Sample") c10abi2 0 [] ("")
     rfl ⟨("f", [c10fn]), by simp [c10abi2], by simp⟩ (by decide)).1⟩
